import Mathlib

/-!
Shallow embedding of the `jrn` encrypted journal core
(`src/date.rs`, `src/db.rs`, `src/encryptor.rs`).

Modelling conventions:
* Rust `String` / `&str` / `Vec<u8>` values are modelled as `List Nat`
  (the UTF-8 byte representation); a Rust `&str` always satisfies
  `utf8Valid`.
* Rust `[u8; 32]` / `[u8; 12]` arrays are `List Nat` with a length
  invariant carried where it matters.
* External crates (bcrypt, aes-gcm-siv, pbkdf2, base64, chrono clock
  arithmetic, serde_json) are modelled as parameters together with their
  documented contracts; theorems quantify over every implementation
  satisfying the contract.
* Randomness (`rand::thread_rng`) is modelled by universally quantifying
  over the values the generator may produce.
* A Rust panic / `unwrap()` failure is an explicit `crash` outcome.
-/

/-- Bytes of a Rust `String`/`&str` (UTF-8 representation). -/
abbrev RStr := List Nat

/-- `true` iff the byte is a UTF-8 continuation byte `0x80..0xBF`. -/
def isCont (b : Nat) : Bool := 0x80 ≤ b && b ≤ 0xBF

/-- UTF-8 validity of a byte sequence, as checked by Rust's
`String::from_utf8` (RFC 3629: overlong forms, surrogates and
code points above `0x10FFFF` are rejected). -/
def utf8Valid : List Nat → Bool
  | [] => true
  | b1 :: t1 =>
    if b1 ≤ 0x7F then utf8Valid t1
    else if 0xC2 ≤ b1 && b1 ≤ 0xDF then
      match t1 with
      | b2 :: t2 => isCont b2 && utf8Valid t2
      | [] => false
    else if b1 = 0xE0 then
      match t1 with
      | b2 :: b3 :: t3 => (0xA0 ≤ b2 && b2 ≤ 0xBF) && isCont b3 && utf8Valid t3
      | _ => false
    else if (0xE1 ≤ b1 && b1 ≤ 0xEC) || b1 = 0xEE || b1 = 0xEF then
      match t1 with
      | b2 :: b3 :: t3 => isCont b2 && isCont b3 && utf8Valid t3
      | _ => false
    else if b1 = 0xED then
      match t1 with
      | b2 :: b3 :: t3 => (0x80 ≤ b2 && b2 ≤ 0x9F) && isCont b3 && utf8Valid t3
      | _ => false
    else if b1 = 0xF0 then
      match t1 with
      | b2 :: b3 :: b4 :: t4 =>
        (0x90 ≤ b2 && b2 ≤ 0xBF) && isCont b3 && isCont b4 && utf8Valid t4
      | _ => false
    else if 0xF1 ≤ b1 && b1 ≤ 0xF3 then
      match t1 with
      | b2 :: b3 :: b4 :: t4 => isCont b2 && isCont b3 && isCont b4 && utf8Valid t4
      | _ => false
    else if b1 = 0xF4 then
      match t1 with
      | b2 :: b3 :: b4 :: t4 =>
        (0x80 ≤ b2 && b2 ≤ 0x8F) && isCont b3 && isCont b4 && utf8Valid t4
      | _ => false
    else false

/-- `Date` from `src/date.rs`: year (`i32`, may be negative), month and
day (`u8`). -/
structure Date where
  year : Int
  month : Nat
  day : Nat
deriving DecidableEq, Repr

/-- `State` from `src/db.rs`: the decrypted journal — a cleartext
password and a `HashMap<Date, String>` of entries, modelled as an
association list. -/
structure State where
  password : RStr
  entries : List (Date × RStr)
deriving DecidableEq, Repr

/-- `EncryptedEntry` from `src/db.rs`: cleartext date, 12-byte nonce,
encrypted digest. -/
structure EncryptedEntry where
  date : Date
  nonce : List Nat
  digest : List Nat
deriving DecidableEq, Repr

/-- `EncryptedJournal` from `src/db.rs`: password hash, 32-byte KDF
salt, and a `HashSet` of encrypted entries (modelled as a list without
duplicates). -/
structure EncryptedJournal where
  password_hash : RStr
  kdf_salt : List Nat
  entries : List EncryptedEntry
deriving DecidableEq, Repr

/-- `StoredEntry` from `src/db.rs`: the text-safe on-disk mirror of an
encrypted entry (nonce and digest base64-encoded). -/
structure StoredEntry where
  date : Date
  nonce : RStr
  digest : RStr
deriving DecidableEq, Repr

/-- `StoredJournal` from `src/db.rs`: the text-safe on-disk mirror of an
encrypted journal. -/
structure StoredJournal where
  password_hash : RStr
  kdf_salt : RStr
  entries : List StoredEntry
deriving DecidableEq, Repr

/-- `FromBase64Error` from `src/db.rs`. -/
inductive FromBase64Error where
  | NotValidBase64
  | InvalidLength
deriving DecidableEq, Repr

/-- `DecryptError` from `src/encryptor.rs`. -/
inductive DecryptError where
  | IncorrectPassword
deriving DecidableEq, Repr

/-- `LoadError` from `src/db.rs`. -/
inductive LoadError where
  | NotAccessible
  | ParseError
  | FromBase64Error (e : FromBase64Error)
  | IncorrectPassword
deriving DecidableEq, Repr

/-- One step of Rust `HashSet` insertion: keep the set unchanged when the
element is already present, otherwise add it. -/
def hsInsert {α : Type} [DecidableEq α] (s : List α) (x : α) : List α :=
  if x ∈ s then s else s ++ [x]

/-- Rust `HashSet::from_iter` / `.collect()`: insert the elements one by
one into an empty set. -/
def hsFromList {α : Type} [DecidableEq α] (l : List α) : List α :=
  l.foldl hsInsert []

/-- One step of Rust `HashMap` insertion: a later value for an existing
key overwrites the earlier one. -/
def hmInsert (m : List (Date × RStr)) (d : Date) (t : RStr) : List (Date × RStr) :=
  if m.any (fun p => p.1 = d) then
    m.map (fun p => if p.1 = d then (d, t) else p)
  else m ++ [(d, t)]

/-- Rust `HashMap::from_iter` / `.collect()` on `(Date, String)` pairs. -/
def hmFromList (l : List (Date × RStr)) : List (Date × RStr) :=
  l.foldl (fun m p => hmInsert m p.1 p.2) []

/-- The `Encryptor` trait of `src/encryptor.rs` (its six required
methods).  `make_kdf_salt` and the nonce inside
`encrypt_journal_entry` are random in the Rust code; an `Encryptor`
value fixes one outcome of the generator, and theorems quantify over
all such values.  `decrypt_journal_entry` returns `none` when the Rust
code would panic (`unwrap` of a failed decryption). -/
structure Encryptor where
  hash_password : RStr → RStr
  verify_password : RStr → RStr → Bool
  encrypt_journal_entry : List Nat → RStr → Date → EncryptedEntry
  decrypt_journal_entry : List Nat → EncryptedEntry → Option (Date × RStr)
  make_kdf_salt : List Nat
  gen_key : RStr → List Nat → List Nat

/-- Monadic map over `Option`, modelling an iterator whose body can
panic: the first `none` aborts the whole traversal. -/
def tryMap {α β : Type} (f : α → Option β) : List α → Option (List β)
  | [] => some []
  | x :: xs =>
    match f x with
    | none => none
    | some y => (tryMap f xs).map (fun ys => y :: ys)

/-- Provided method `Encryptor::encrypt_journal` (src/encryptor.rs:55):
hash the password, make one salt, derive one key, encrypt every entry,
collect into a `HashSet`. -/
def Encryptor.encrypt_journal (e : Encryptor) (journal : State) : EncryptedJournal :=
  let password_hash := e.hash_password journal.password
  let kdf_salt := e.make_kdf_salt
  let key := e.gen_key journal.password kdf_salt
  { password_hash := password_hash
    kdf_salt := kdf_salt
    entries := hsFromList (journal.entries.map (fun p => e.encrypt_journal_entry key p.2 p.1)) }

/-- Outcome of `Encryptor::decrypt_journal`: success, the typed
`DecryptError`, or a panic inside entry decryption. -/
inductive DecryptOutcome where
  | ok (st : State)
  | err (e : DecryptError)
  | crash
deriving DecidableEq, Repr

/-- Provided method `Encryptor::decrypt_journal` (src/encryptor.rs:75):
verify the password against the stored hash first and fail with
`IncorrectPassword` if it does not check out; otherwise derive the key
from the stored salt and decrypt every entry, collecting into a
`HashMap`. -/
def Encryptor.decrypt_journal (e : Encryptor) (encrypted_journal : EncryptedJournal)
    (password : RStr) : DecryptOutcome :=
  if e.verify_password encrypted_journal.password_hash password then
    let key := e.gen_key password encrypted_journal.kdf_salt
    match tryMap (e.decrypt_journal_entry key) encrypted_journal.entries with
    | none => .crash
    | some pairs => .ok { password := password, entries := hmFromList pairs }
  else .err .IncorrectPassword

/-- `ZeroSecurity` (src/encryptor.rs:104): identity hash, equality
verification, all-zero salt and key, plaintext stored verbatim as the
digest under an all-zero nonce.  Its `decrypt_journal_entry` calls
`String::from_utf8(..).unwrap()`, so it crashes on a digest that is not
valid UTF-8. -/
def ZeroSecurity : Encryptor where
  hash_password := fun password => password
  verify_password := fun hashed_password entered_password =>
    hashed_password == entered_password
  encrypt_journal_entry := fun _key entry date =>
    { date := date, nonce := List.replicate 12 0, digest := entry }
  decrypt_journal_entry := fun _key entry =>
    if utf8Valid entry.digest then some (entry.date, entry.digest) else none
  make_kdf_salt := List.replicate 32 0
  gen_key := fun _password _kdf_salt => List.replicate 32 0

/-- The external cryptographic primitives used by `Secure`
(bcrypt, pbkdf2-hmac-sha256, AES-256-GCM-SIV); they live in third-party
crates, so they are parameters of the model.  `aes_dec` returns `none`
exactly when authentication fails. -/
structure AesPrims where
  bcrypt_hash : RStr → RStr
  bcrypt_verify : RStr → RStr → Bool
  pbkdf2_key : RStr → List Nat → List Nat
  aes_enc : List Nat → List Nat → List Nat → List Nat
  aes_dec : List Nat → List Nat → List Nat → Option (List Nat)

/-- The documented contracts of the external primitives: a bcrypt hash
verifies against the password that produced it, and AES-GCM-SIV
decryption inverts encryption under the same key and nonce. -/
def AesPrims.sound (p : AesPrims) : Prop :=
  (∀ pw, p.bcrypt_verify pw (p.bcrypt_hash pw) = true) ∧
  (∀ k n m, p.aes_dec k n (p.aes_enc k n m) = some m)

/-- `Secure` (src/encryptor.rs:154), parametrised by the external
primitives, by the salt `rand::thread_rng` produced for `make_kdf_salt`,
and by the nonce it produced for each `encrypt_journal_entry` call.
`decrypt_journal_entry` unwraps the AES result and the UTF-8 conversion,
so it crashes (returns `none`) when authentication fails or the
plaintext is not valid UTF-8. -/
def Secure (p : AesPrims) (salt : List Nat)
    (nonceOf : List Nat → RStr → Date → List Nat) : Encryptor where
  hash_password := fun password => p.bcrypt_hash password
  verify_password := fun hashed_password entered_password =>
    p.bcrypt_verify entered_password hashed_password
  encrypt_journal_entry := fun key entry date =>
    let nonce := nonceOf key entry date
    { date := date, nonce := nonce, digest := p.aes_enc key nonce entry }
  decrypt_journal_entry := fun key entry =>
    match p.aes_dec key entry.nonce entry.digest with
    | none => none
    | some cleartext =>
      if utf8Valid cleartext then some (entry.date, cleartext) else none
  make_kdf_salt := salt
  gen_key := fun password kdf_salt => p.pbkdf2_key password kdf_salt

/-- The base64 codec of the external `base64` crate
(`BASE64_STANDARD.encode` / `.decode`), as a parameter of the model. -/
structure B64 where
  enc : List Nat → RStr
  dec : RStr → Option (List Nat)

/-- Documented contract of the base64 crate: decoding inverts
encoding. -/
def B64.ok (c : B64) : Prop := ∀ l, c.dec (c.enc l) = some l

/-- The identity codec: a trivial instance of the `B64.ok` contract,
used to evaluate the parametric theorems on concrete inputs. -/
def idB64 : B64 where
  enc := fun l => l
  dec := fun l => some l

/-- `try_b64_to_arr::<N>` (src/db.rs:118): decode, report
`NotValidBase64` on a decode failure, `InvalidLength` when the decoded
byte count differs from `N`. -/
def try_b64_to_arr (c : B64) (N : Nat) (s : RStr) :
    Except FromBase64Error (List Nat) :=
  match c.dec s with
  | none => .error .NotValidBase64
  | some decoded =>
    if decoded.length = N then .ok decoded else .error .InvalidLength

/-- `try_b64_to_vec` (src/db.rs:130): decode, report `NotValidBase64`
on a decode failure; no length constraint. -/
def try_b64_to_vec (c : B64) (s : RStr) : Except FromBase64Error (List Nat) :=
  match c.dec s with
  | none => .error .NotValidBase64
  | some v => .ok v

/-- `From<EncryptedEntry> for StoredEntry` (src/db.rs:105). -/
def storedOfEncrypted (c : B64) (e : EncryptedEntry) : StoredEntry :=
  { date := e.date, nonce := c.enc e.nonce, digest := c.enc e.digest }

/-- `TryFrom<StoredEntry> for EncryptedEntry` (src/db.rs:91): the nonce
must decode to exactly 12 bytes, the digest to any byte count. -/
def encryptedOfStored (c : B64) (s : StoredEntry) :
    Except FromBase64Error EncryptedEntry := do
  let nonce ← try_b64_to_arr c 12 s.nonce
  let digest ← try_b64_to_vec c s.digest
  pure { date := s.date, nonce := nonce, digest := digest }

/-- `From<EncryptedJournal> for StoredJournal` (src/db.rs:74): encode
the salt, encode every entry, collect into a `HashSet`. -/
def storedOfEncryptedJournal (c : B64) (j : EncryptedJournal) : StoredJournal :=
  { password_hash := j.password_hash
    kdf_salt := c.enc j.kdf_salt
    entries := hsFromList (j.entries.map (storedOfEncrypted c)) }

/-- The entry loop of `TryFrom<StoredJournal> for EncryptedJournal`
(src/db.rs:62): convert each stored entry in turn, inserting into a
`HashSet`, propagating the first conversion error. -/
def insertEntries (c : B64) : List StoredEntry → List EncryptedEntry →
    Except FromBase64Error (List EncryptedEntry)
  | [], acc => .ok acc
  | s :: rest, acc =>
    match encryptedOfStored c s with
    | .error e => .error e
    | .ok en => insertEntries c rest (hsInsert acc en)

/-- `TryFrom<StoredJournal> for EncryptedJournal` (src/db.rs:57): the
salt must decode to exactly 32 bytes, then every entry is converted. -/
def encryptedOfStoredJournal (c : B64) (sj : StoredJournal) :
    Except FromBase64Error EncryptedJournal := do
  let kdf_salt ← try_b64_to_arr c 32 sj.kdf_salt
  let entries ← insertEntries c sj.entries []
  pure { password_hash := sj.password_hash, kdf_salt := kdf_salt, entries := entries }

/-- Outcome of `State::load`: success with the new state, a typed
`LoadError`, or a panic. -/
inductive LoadOutcome where
  | ok (st : State)
  | err (e : LoadError)
  | crash
deriving DecidableEq, Repr

/-- `State::load` (src/db.rs:204).  `file` is the result of
`fs::read` (`none` = unreadable/missing); `parse` is
`serde_json::from_str::<StoredJournal>` (external crate, a parameter of
the model).  The code calls `String::from_utf8(json.unwrap()).unwrap()`
on the raw bytes, so a file that is not valid UTF-8 panics.  The result
pairs the returned outcome with the final value of `self`: `*self` is
assigned only on the success path, every early `return Err` leaves it
untouched. -/
def State.load (st : State) (file : Option (List Nat))
    (parse : List Nat → Option StoredJournal) (c : B64) (e : Encryptor)
    (password : RStr) : LoadOutcome × State :=
  match file with
  | none => (.err .NotAccessible, st)
  | some bytes =>
    if utf8Valid bytes then
      match parse bytes with
      | none => (.err .ParseError, st)
      | some stored_journal =>
        match encryptedOfStoredJournal c stored_journal with
        | .error er => (.err (.FromBase64Error er), st)
        | .ok encrypted_journal =>
          match e.decrypt_journal encrypted_journal password with
          | .err .IncorrectPassword => (.err .IncorrectPassword, st)
          | .crash => (.crash, st)
          | .ok st' => (.ok st', st')
    else (.crash, st)

/-- The character for a single decimal digit. -/
def digitChar (n : Nat) : Char := Char.ofNat (48 + n)

/-- Decimal digit characters of a positive number, most significant
first, by fuel-bounded division (`fuel ≥ n` suffices). -/
def natToCharsAux : Nat → Nat → List Char
  | 0, _ => []
  | fuel + 1, n =>
    if n = 0 then [] else natToCharsAux fuel (n / 10) ++ [digitChar (n % 10)]

/-- Rust `{}` formatting of an unsigned number. -/
def natToChars (n : Nat) : List Char :=
  if n = 0 then ['0'] else natToCharsAux (n + 1) n

/-- Rust `{}` formatting of an `i32` (minus sign for negatives). -/
def intToChars (i : Int) : List Char :=
  if i < 0 then '-' :: natToChars i.natAbs else natToChars i.toNat

/-- Rust `{:02}` formatting: zero-pad to width two. -/
def pad2 (n : Nat) : List Char :=
  if n < 10 then '0' :: natToChars n else natToChars n

/-- `Display for Date` (src/date.rs:52): `"{}-{:02}-{:02}"`. -/
def dateDisplay (d : Date) : List Char :=
  intToChars d.year ++ '-' :: (pad2 d.month ++ '-' :: pad2 d.day)

/-- `DateFromStrError` from `src/date.rs`. -/
inductive DateFromStrError where
  | InvalidTodayMinusFormat
  | InvalidLength
  | IsNotNumeric
  | InvalidDate
deriving DecidableEq, Repr

/-- Rust `char::is_whitespace` restricted to the ASCII whitespace
characters (the only ones the claims exercise). -/
def isWsC (c : Char) : Bool :=
  c = ' ' || c = '\t' || c = '\n' || c = '\r'

/-- Rust `str::trim`: drop whitespace from both ends. -/
def trimL (l : List Char) : List Char :=
  ((l.dropWhile isWsC).reverse.dropWhile isWsC).reverse

/-- Rust `str::to_lowercase` on one character (ASCII case mapping; the
claims only exercise ASCII). -/
def toLowerC (c : Char) : Char :=
  if 65 ≤ c.toNat ∧ c.toNat ≤ 90 then Char.ofNat (c.toNat + 32) else c

/-- Rust `str::to_lowercase`. -/
def toLowerL (l : List Char) : List Char := l.map toLowerC

/-- Rust `str::starts_with` on char lists. -/
def startsWithL : List Char → List Char → Bool
  | [], _ => true
  | _ :: _, [] => false
  | p :: ps, c :: cs => p == c && startsWithL ps cs

/-- Rust `str::split('-')`. -/
def splitDash : List Char → List (List Char)
  | [] => [[]]
  | c :: rest =>
    if c = '-' then [] :: splitDash rest
    else
      match splitDash rest with
      | [] => [[c]]
      | h :: t => (c :: h) :: t

/-- The numeric value of a decimal digit character, `none` otherwise. -/
def charDigit (c : Char) : Option Nat :=
  if 48 ≤ c.toNat ∧ c.toNat ≤ 57 then some (c.toNat - 48) else none

/-- One accumulation step of decimal parsing. -/
def digitStep (acc : Option Nat) (c : Char) : Option Nat :=
  acc.bind fun a => (charDigit c).map fun d => a * 10 + d

/-- The value of a nonempty all-digit character list, `none` on an empty
list or any non-digit. -/
def digitsVal (l : List Char) : Option Nat :=
  if l.isEmpty then none else l.foldl digitStep (some 0)

/-- Rust `str::parse::<u8>`: optional leading `+`, digits, value at most
255. -/
def parseU8 (l : List Char) : Option Nat :=
  let l := match l with
    | '+' :: t => t
    | _ => l
  (digitsVal l).bind fun v => if v ≤ 255 then some v else none

/-- Rust `str::parse::<i32>`: optional sign, digits, `i32` range. -/
def parseI32 (l : List Char) : Option Int :=
  match l with
  | [] => none
  | c :: t =>
    if c = '-' then
      (digitsVal t).bind fun v =>
        if v ≤ 2147483648 then some (-(v : Int)) else none
    else if c = '+' then
      (digitsVal t).bind fun v =>
        if v ≤ 2147483647 then some ((v : Int)) else none
    else
      (digitsVal (c :: t)).bind fun v =>
        if v ≤ 2147483647 then some ((v : Int)) else none

/-- Rust `str::parse::<u128>`: optional leading `+`, digits, value below
`2^128`. -/
def parseU128 (l : List Char) : Option Nat :=
  let l := match l with
    | '+' :: t => t
    | _ => l
  (digitsVal l).bind fun v => if v < 2 ^ 128 then some v else none

/-- Whether a year is a Gregorian leap year (chrono's proleptic
calendar). -/
def isLeap (y : Int) : Bool :=
  (y % 4 = 0 && y % 100 ≠ 0) || y % 400 = 0

/-- Days in a month of the proleptic Gregorian calendar. -/
def daysInMonth (y : Int) (m : Nat) : Nat :=
  if m = 2 then (if isLeap y then 29 else 28)
  else if m = 4 || m = 6 || m = 9 || m = 11 then 30
  else 31

/-- `chrono::NaiveDate::from_ymd_opt` viewed as a validity test: month
and day in calendar range and the year within chrono's representable
range (19-bit signed year field). -/
def fromYmdValid (y : Int) (m d : Nat) : Bool :=
  -262144 ≤ y && y ≤ 262143 && 1 ≤ m && m ≤ 12 && 1 ≤ d && d ≤ daysInMonth y m

/-- `FromStr for Date` (src/date.rs:69).  `now` is the date
`chrono::Local::now()` reports; `subDays n` is the result of the chrono
pipeline `TimeDelta::try_days(n as i64)` followed by
`checked_sub_signed` (`none` when either step fails, both of which the
code reports as `InvalidDate`). -/
def dateFromStr (now : Date) (subDays : Nat → Option Date) (input : List Char) :
    Except DateFromStrError Date :=
  let s := toLowerL (trimL input)
  if startsWithL ['t', 'o', 'd', 'a', 'y'] s then
    let rest := trimL (s.drop 5)
    match rest with
    | [] => .ok now
    | c :: r =>
      if c = '-' then
        match parseU128 (trimL r) with
        | none => .error .InvalidTodayMinusFormat
        | some n =>
          match subDays n with
          | none => .error .InvalidDate
          | some d => .ok d
      else .error .InvalidTodayMinusFormat
  else
    match splitDash s with
    | [ys, ms, ds] =>
      match parseI32 ys, parseU8 ms, parseU8 ds with
      | some year, some month, some day =>
        if fromYmdValid year month day then .ok ⟨year, month, day⟩
        else .error .InvalidDate
      | _, _, _ => .error .IsNotNumeric
    | _ => .error .InvalidLength

deriving instance DecidableEq for Except

lemma hsFromList_singleton {α : Type} [DecidableEq α] (x : α) :
    hsFromList [x] = [x] := by
  simp [hsFromList, hsInsert, List.foldl]

lemma hmFromList_singleton (d : Date) (t : RStr) :
    hmFromList [(d, t)] = [(d, t)] := by
  simp [hmFromList, hmInsert, List.foldl]

/-- **C9.** The `ZeroSecurity` variant stores the plaintext bytes of the
entry verbatim as the digest with an all-zero 12-byte nonce, its
`make_kdf_salt` is the all-zero 32-byte salt, and decrypting the
encrypted entry returns the date and text unchanged (the round-trip is
the identity on content; the hypothesis `utf8Valid T` states that `T`
is the byte representation of a Rust `&str`). -/
theorem zero_security_transparent (key : List Nat) (T : RStr) (D : Date)
    (hT : utf8Valid T = true) :
    ZeroSecurity.encrypt_journal_entry key T D
      = ⟨D, List.replicate 12 0, T⟩ ∧
    ZeroSecurity.make_kdf_salt = List.replicate 32 0 ∧
    ZeroSecurity.decrypt_journal_entry key
      (ZeroSecurity.encrypt_journal_entry key T D) = some (D, T) := by
  refine ⟨rfl, rfl, ?_⟩
  simp [ZeroSecurity, hT]

/-- Witness for `zero_security_transparent` at the entry text "hi"
(bytes `[104, 105]`). -/
theorem zero_security_transparent_witness :
    ZeroSecurity.decrypt_journal_entry (List.replicate 32 0)
      (ZeroSecurity.encrypt_journal_entry (List.replicate 32 0) [104, 105] ⟨2024, 1, 1⟩)
      = some (⟨2024, 1, 1⟩, [104, 105]) :=
  (zero_security_transparent (List.replicate 32 0) [104, 105] ⟨2024, 1, 1⟩ (by decide)).2.2

/-- **C5.** (1) `decrypt_journal` fails with `IncorrectPassword` exactly
when `verify_password` on the stored hash fails; (2) in that case the
result does not depend on the key-derivation or entry-decryption
methods at all (it fails before deriving a key or touching any entry);
(3) for `ZeroSecurity`, a journal encrypted under password `P` fails to
decrypt under any `P2 ≠ P` with `IncorrectPassword`. -/
theorem decrypt_journal_password_gate :
    (∀ (e : Encryptor) (ej : EncryptedJournal) (pw : RStr),
      e.decrypt_journal ej pw = .err .IncorrectPassword ↔
        e.verify_password ej.password_hash pw = false) ∧
    (∀ (e : Encryptor) (gk : RStr → List Nat → List Nat)
      (dj : List Nat → EncryptedEntry → Option (Date × RStr))
      (ej : EncryptedJournal) (pw : RStr),
      e.verify_password ej.password_hash pw = false →
      Encryptor.decrypt_journal
        { e with gen_key := gk, decrypt_journal_entry := dj } ej pw
        = .err .IncorrectPassword) ∧
    (∀ (P P2 : RStr) (entries : List (Date × RStr)), P ≠ P2 →
      ZeroSecurity.decrypt_journal
        (ZeroSecurity.encrypt_journal ⟨P, entries⟩) P2
        = .err .IncorrectPassword) := by
  refine ⟨?_, ?_, ?_⟩
  · intro e ej pw
    constructor
    · intro h
      by_contra hv
      rw [Bool.not_eq_false] at hv
      rw [Encryptor.decrypt_journal, if_pos hv] at h
      dsimp only at h
      cases htm : tryMap (e.decrypt_journal_entry (e.gen_key pw ej.kdf_salt)) ej.entries with
      | none => rw [htm] at h; exact DecryptOutcome.noConfusion h
      | some pairs => rw [htm] at h; exact DecryptOutcome.noConfusion h
    · intro h
      rw [Encryptor.decrypt_journal, if_neg (by simp [h])]
  · intro e gk dj ej pw h
    rw [Encryptor.decrypt_journal, if_neg (by simp [h])]
  · intro P P2 entries hne
    have hhash : (ZeroSecurity.encrypt_journal ⟨P, entries⟩).password_hash = P := rfl
    rw [Encryptor.decrypt_journal, if_neg]
    rw [hhash]
    show ¬ (P == P2) = true
    simp [hne]

/-- Witness for `decrypt_journal_password_gate`: the `ZeroSecurity`
journal encrypted under password `[1]` rejects password `[2]`. -/
theorem decrypt_journal_password_gate_witness :
    ZeroSecurity.decrypt_journal
      (ZeroSecurity.encrypt_journal ⟨[1], []⟩) [2]
      = .err .IncorrectPassword :=
  decrypt_journal_password_gate.2.2 [1] [2] [] (by decide)

/-- **C1.** Secure encrypt/decrypt inverse: for every implementation of
the external primitives satisfying their contracts, every salt and
nonce choice the generator may produce, every password `P`, date `D`
and entry text `T` (a Rust `&str`, hence valid UTF-8), decrypting the
encryption of `State{password := P, entries := {D ↦ T}}` with `P`
succeeds and returns the same state. -/
theorem secure_encrypt_decrypt_roundtrip (p : AesPrims) (hp : p.sound)
    (salt : List Nat) (nonceOf : List Nat → RStr → Date → List Nat)
    (P : RStr) (D : Date) (T : RStr) (hT : utf8Valid T = true) :
    (Secure p salt nonceOf).decrypt_journal
      ((Secure p salt nonceOf).encrypt_journal ⟨P, [(D, T)]⟩) P
      = .ok ⟨P, [(D, T)]⟩ := by
  obtain ⟨hver, haes⟩ := hp
  simp only [Encryptor.encrypt_journal, Encryptor.decrypt_journal, Secure]
  rw [if_pos (hver P)]
  simp [hsFromList_singleton, tryMap, haes, hT, hmFromList_singleton]

/-- Witness for `secure_encrypt_decrypt_roundtrip`: the contracts hold
for the trivial primitives (identity hash, equality verification,
identity cipher), and the round-trip identity follows at password
`[112]`, date 2024-01-01, text `"hi"`. -/
theorem secure_encrypt_decrypt_roundtrip_witness :
    (Secure ⟨fun pw => pw, fun a b => a == b, fun _ _ => [], fun _ _ m => m,
        fun _ _ cl => some cl⟩ [] (fun _ _ _ => [])).decrypt_journal
      ((Secure ⟨fun pw => pw, fun a b => a == b, fun _ _ => [], fun _ _ m => m,
        fun _ _ cl => some cl⟩ [] (fun _ _ _ => [])).encrypt_journal
        ⟨[112], [(⟨2024, 1, 1⟩, [104, 105])]⟩) [112]
      = .ok ⟨[112], [(⟨2024, 1, 1⟩, [104, 105])]⟩ :=
  secure_encrypt_decrypt_roundtrip _
    ⟨fun pw => by simp, fun k n m => rfl⟩ [] (fun _ _ _ => [])
    [112] ⟨2024, 1, 1⟩ [104, 105] (by decide)

/-- **C4 (code bug).** When AES-GCM-SIV authentication fails on an
entry (tampered ciphertext or tag), `Secure::decrypt_journal_entry`
does not return a recoverable authentication error: it crashes (the
source unwraps the `Result` in `Secure::aes_decrypt`,
src/encryptor.rs:234).  It does, however, never return unverified
plaintext: a returned pair carries exactly the plaintext the AEAD
verified, under the entry's own date. -/
theorem secure_decrypt_entry_crashes_on_auth_failure
    (p : AesPrims) (salt : List Nat)
    (nonceOf : List Nat → RStr → Date → List Nat)
    (key : List Nat) (entry : EncryptedEntry) :
    (p.aes_dec key entry.nonce entry.digest = none →
      (Secure p salt nonceOf).decrypt_journal_entry key entry = none) ∧
    (∀ d m, (Secure p salt nonceOf).decrypt_journal_entry key entry = some (d, m) →
      p.aes_dec key entry.nonce entry.digest = some m ∧ d = entry.date) := by
  constructor
  · intro h
    simp [Secure, h]
  · intro d m h
    simp only [Secure] at h
    cases hdec : p.aes_dec key entry.nonce entry.digest with
    | none => rw [hdec] at h; exact Option.noConfusion h
    | some clear =>
      rw [hdec] at h
      dsimp only at h
      by_cases hv : utf8Valid clear = true
      · rw [if_pos hv] at h
        have hpair := Option.some.inj h
        injection hpair with h1 h2
        subst h1
        subst h2
        exact ⟨rfl, rfl⟩
      · rw [if_neg hv] at h; exact Option.noConfusion h

/-- Witness for `secure_decrypt_entry_crashes_on_auth_failure`: with
primitives whose authentication always fails, decrypting any entry
crashes. -/
theorem secure_decrypt_entry_crashes_on_auth_failure_witness :
    (Secure ⟨fun pw => pw, fun _ _ => true, fun _ _ => [], fun _ _ m => m,
        fun _ _ _ => none⟩ [] (fun _ _ _ => [])).decrypt_journal_entry
      [] ⟨⟨2024, 1, 1⟩, List.replicate 12 0, [0]⟩ = none :=
  (secure_decrypt_entry_crashes_on_auth_failure _ [] (fun _ _ _ => []) []
    ⟨⟨2024, 1, 1⟩, List.replicate 12 0, [0]⟩).1 rfl

/-- **C3 (code bug).** `State::load` does not return a typed error for
every corrupt file: called on a readable file whose content is the
single byte `0xFF` (not valid UTF-8), it panics — the source unwraps
`String::from_utf8` on the raw bytes (src/db.rs:214) — for every
parser, codec, encryptor, password and prior state. -/
theorem load_crashes_on_invalid_utf8_file (st : State)
    (parse : List Nat → Option StoredJournal) (c : B64) (e : Encryptor)
    (password : RStr) :
    (State.load st (some [0xFF]) parse c e password).1 = .crash := by
  have hval : utf8Valid [0xFF] = false := by decide
  simp [State.load, hval]

/-- **C6.** Whatever the file content, parser, codec, encryptor and
password: (1) when `State::load` returns an error the prior in-memory
state is left exactly as it was; (2) when it returns `Ok` the state is
replaced wholesale by the decrypted journal (the outcome of the
decryption chain, not a merge); (3) the outcome never depends on the
prior state at all. -/
theorem load_all_or_nothing (st : State) (file : Option (List Nat))
    (parse : List Nat → Option StoredJournal) (c : B64) (e : Encryptor)
    (password : RStr) :
    (∀ er, (State.load st file parse c e password).1 = .err er →
      (State.load st file parse c e password).2 = st) ∧
    (∀ st', (State.load st file parse c e password).1 = .ok st' →
      (State.load st file parse c e password).2 = st' ∧
      ∃ bytes sj ej, file = some bytes ∧ parse bytes = some sj ∧
        encryptedOfStoredJournal c sj = .ok ej ∧
        e.decrypt_journal ej password = .ok st') ∧
    (∀ st2, (State.load st file parse c e password).1
      = (State.load st2 file parse c e password).1) := by
  refine ⟨?_, ?_, ?_⟩
  · intro er h
    cases file with
    | none => rfl
    | some bytes =>
      by_cases hv : utf8Valid bytes = true
      · simp only [State.load, hv, if_true] at h ⊢
        cases hp : parse bytes with
        | none => simp [hp]
        | some sj =>
          simp only [hp] at h ⊢
          cases hc : encryptedOfStoredJournal c sj with
          | error er2 => simp [hc]
          | ok ej =>
            simp only [hc] at h ⊢
            cases hd : e.decrypt_journal ej password with
            | ok st' => simp only [hd] at h; exact LoadOutcome.noConfusion h
            | err de => cases de; simp [hd]
            | crash => simp only [hd] at h; exact LoadOutcome.noConfusion h
      · simp only [State.load, hv, if_false] at h
        exact LoadOutcome.noConfusion h
  · intro st' h
    cases file with
    | none => exact absurd h (by simp [State.load])
    | some bytes =>
      by_cases hv : utf8Valid bytes = true
      · simp only [State.load, hv, if_true] at h ⊢
        cases hp : parse bytes with
        | none => simp only [hp] at h; exact LoadOutcome.noConfusion h
        | some sj =>
          simp only [hp] at h ⊢
          cases hc : encryptedOfStoredJournal c sj with
          | error er2 => simp only [hc] at h; exact LoadOutcome.noConfusion h
          | ok ej =>
            simp only [hc] at h ⊢
            cases hd : e.decrypt_journal ej password with
            | ok st'' =>
              simp only [hd] at h ⊢
              have hss : st'' = st' := LoadOutcome.ok.inj h
              subst hss
              exact ⟨rfl, bytes, sj, ej, rfl, hp, hc, hd⟩
            | err de => cases de; simp only [hd] at h; exact LoadOutcome.noConfusion h
            | crash => simp only [hd] at h; exact LoadOutcome.noConfusion h
      · simp only [State.load, hv, if_false] at h
        exact LoadOutcome.noConfusion h
  · intro st2
    cases file with
    | none => rfl
    | some bytes =>
      by_cases hv : utf8Valid bytes = true
      · simp only [State.load, hv, if_true]
        cases hp : parse bytes with
        | none => simp only [hp]
        | some sj =>
          simp only [hp]
          cases hc : encryptedOfStoredJournal c sj with
          | error er2 => simp only [hc]
          | ok ej =>
            simp only [hc]
            cases hd : e.decrypt_journal ej password with
            | ok st' => simp only [hd]
            | err de => cases de; simp only [hd]
            | crash => simp only [hd]
      · simp [State.load, hv]

/-- Witness for `load_all_or_nothing`: loading a missing file reports
`NotAccessible` and leaves the prior state unchanged. -/
theorem load_all_or_nothing_witness :
    (State.load ⟨[7], []⟩ none (fun _ => none) idB64 ZeroSecurity []).2
      = ⟨[7], []⟩ :=
  (load_all_or_nothing ⟨[7], []⟩ none (fun _ => none) idB64 ZeroSecurity []).1
    .NotAccessible rfl

/-- **C7.** For every base64 implementation: a `StoredJournal` whose
`kdf_salt` is decodable but yields other than 32 bytes (e.g. 31)
converts with `InvalidLength`; a nonce decoding to other than 12 bytes
fails with `InvalidLength`; an undecodable field fails with
`NotValidBase64`; the digest has no length constraint. -/
theorem stored_field_length_checks (c : B64) :
    (∀ (sj : StoredJournal) (bytes : List Nat),
      c.dec sj.kdf_salt = some bytes → bytes.length ≠ 32 →
      encryptedOfStoredJournal c sj = .error .InvalidLength) ∧
    (∀ (s : RStr) (bytes : List Nat),
      c.dec s = some bytes → bytes.length ≠ 12 →
      try_b64_to_arr c 12 s = .error .InvalidLength) ∧
    (∀ (s : RStr) (N : Nat), c.dec s = none →
      try_b64_to_arr c N s = .error .NotValidBase64) ∧
    (∀ (s : RStr), c.dec s = none →
      try_b64_to_vec c s = .error .NotValidBase64) ∧
    (∀ (s : RStr) (bytes : List Nat), c.dec s = some bytes →
      try_b64_to_vec c s = .ok bytes) := by
  refine ⟨?_, ?_, ?_, ?_, ?_⟩
  · intro sj bytes hdec hlen
    simp only [encryptedOfStoredJournal, try_b64_to_arr, hdec, hlen, if_neg]
    rfl
  · intro s bytes hdec hlen
    simp [try_b64_to_arr, hdec, hlen]
  · intro s N hdec
    simp [try_b64_to_arr, hdec]
  · intro s hdec
    simp [try_b64_to_vec, hdec]
  · intro s bytes hdec
    simp [try_b64_to_vec, hdec]

/-- Witness for `stored_field_length_checks`: under the identity codec,
a stored journal whose salt field holds 31 bytes is rejected with
`InvalidLength`. -/
theorem stored_field_length_checks_witness :
    encryptedOfStoredJournal idB64
      ⟨[], List.replicate 31 0, []⟩ = .error .InvalidLength :=
  (stored_field_length_checks idB64).1 ⟨[], List.replicate 31 0, []⟩
    (List.replicate 31 0) rfl (by decide)

lemma B64.enc_injective {c : B64} (hc : c.ok) : Function.Injective c.enc := by
  intro a b h
  have := hc a
  rw [h, hc b] at this
  exact (Option.some.inj this).symm

lemma foldl_hsInsert_of_nodup {α : Type} [DecidableEq α] :
    ∀ (l acc : List α), (acc ++ l).Nodup → List.foldl hsInsert acc l = acc ++ l := by
  intro l
  induction l with
  | nil => intro acc _; simp
  | cons x xs ih =>
    intro acc hnd
    have hx : x ∉ acc := by
      intro hmem
      have := List.disjoint_of_nodup_append hnd
      exact this hmem (List.mem_cons_self x xs)
    have hstep : hsInsert acc x = acc ++ [x] := by simp [hsInsert, hx]
    rw [List.foldl_cons, hstep, ih (acc ++ [x]) (by simpa using hnd)]
    simp

lemma hsFromList_of_nodup {α : Type} [DecidableEq α] (l : List α) (h : l.Nodup) :
    hsFromList l = l := by
  simpa using foldl_hsInsert_of_nodup l [] (by simpa using h)

lemma storedOfEncrypted_inj {c : B64} (hc : c.ok) :
    Function.Injective (storedOfEncrypted c) := by
  intro a b h
  simp only [storedOfEncrypted, StoredEntry.mk.injEq] at h
  obtain ⟨h1, h2, h3⟩ := h
  cases a; cases b
  simp only [EncryptedEntry.mk.injEq]
  exact ⟨h1, B64.enc_injective hc h2, B64.enc_injective hc h3⟩

lemma encryptedOfStored_roundtrip {c : B64} (hc : c.ok) (e : EncryptedEntry)
    (hn : e.nonce.length = 12) :
    encryptedOfStored c (storedOfEncrypted c e) = .ok e := by
  simp only [encryptedOfStored, storedOfEncrypted, try_b64_to_arr, try_b64_to_vec,
    hc e.nonce, hc e.digest, hn, if_pos]
  rfl

lemma insertEntries_roundtrip {c : B64} (hc : c.ok) :
    ∀ (l acc : List EncryptedEntry), (acc ++ l).Nodup →
      (∀ e ∈ l, e.nonce.length = 12) →
      insertEntries c (l.map (storedOfEncrypted c)) acc = .ok (acc ++ l) := by
  intro l
  induction l with
  | nil => intro acc _ _; simp [insertEntries]
  | cons x xs ih =>
    intro acc hnd hlen
    have hx : x ∉ acc := by
      intro hmem
      exact List.disjoint_of_nodup_append hnd hmem (List.mem_cons_self x xs)
    rw [List.map_cons, insertEntries,
      encryptedOfStored_roundtrip hc x (hlen x (List.mem_cons_self x xs))]
    dsimp only
    have hstep : hsInsert acc x = acc ++ [x] := by simp [hsInsert, hx]
    rw [hstep, ih (acc ++ [x]) (by simpa using hnd)
      (fun e he => hlen e (List.mem_cons_of_mem x he))]
    simp

/-- **C2.** For every base64 implementation satisfying the crate's
contract and every well-formed `EncryptedJournal` (32-byte salt,
12-byte nonces, duplicate-free entry set), converting to the stored
text-safe form and back succeeds and returns the journal unchanged —
bytewise-identical salt, nonces and digests, and the same password hash
and entry set. -/
theorem stored_journal_roundtrip (c : B64) (hc : c.ok) (j : EncryptedJournal)
    (hsalt : j.kdf_salt.length = 32)
    (hnonce : ∀ e ∈ j.entries, e.nonce.length = 12)
    (hnd : j.entries.Nodup) :
    encryptedOfStoredJournal c (storedOfEncryptedJournal c j) = .ok j := by
  have hmapnd : (j.entries.map (storedOfEncrypted c)).Nodup :=
    hnd.map (storedOfEncrypted_inj hc)
  simp only [encryptedOfStoredJournal, storedOfEncryptedJournal,
    try_b64_to_arr, hc j.kdf_salt, hsalt, if_pos,
    hsFromList_of_nodup _ hmapnd]
  rw [insertEntries_roundtrip hc j.entries [] (by simpa using hnd) hnonce]
  rfl

/-- Witness for `stored_journal_roundtrip`: the identity codec
satisfies the contract, and a concrete journal with a 32-byte salt and
one 12-byte-nonce entry converts to the stored form and back
unchanged. -/
theorem stored_journal_roundtrip_witness :
    encryptedOfStoredJournal idB64
      (storedOfEncryptedJournal idB64
        ⟨[104], List.replicate 32 1, [⟨⟨2024, 1, 1⟩, List.replicate 12 2, [3, 4]⟩]⟩)
      = .ok ⟨[104], List.replicate 32 1, [⟨⟨2024, 1, 1⟩, List.replicate 12 2, [3, 4]⟩]⟩ :=
  stored_journal_roundtrip idB64 (fun l => rfl)
    ⟨[104], List.replicate 32 1, [⟨⟨2024, 1, 1⟩, List.replicate 12 2, [3, 4]⟩]⟩
    (by decide) (by decide) (by decide)

lemma foldl_hsInsert_sublist {α : Type} [DecidableEq α] :
    ∀ (l acc : List α), List.Sublist (List.foldl hsInsert acc l) (acc ++ l) := by
  intro l
  induction l with
  | nil => intro acc; simp
  | cons x xs ih =>
    intro acc
    refine (ih (hsInsert acc x)).trans ?_
    by_cases hx : x ∈ acc
    · simp only [hsInsert, if_pos hx]
      exact (List.sublist_cons_self x xs).append_left acc
    · simp only [hsInsert, if_neg hx, List.append_assoc, List.singleton_append]
      exact List.Sublist.refl _

lemma hsFromList_sublist {α : Type} [DecidableEq α] (l : List α) :
    List.Sublist (hsFromList l) l := by
  simpa using foldl_hsInsert_sublist l []

/-- The `Encryptor` claim C10 quantifies over is arbitrary; this
implementation (legal for the trait) writes a fixed date into every
encrypted entry, so two entries of one journal can share a date. -/
def constDateEnc : Encryptor where
  hash_password := fun password => password
  verify_password := fun hashed_password entered_password =>
    hashed_password == entered_password
  encrypt_journal_entry := fun _key entry _date =>
    { date := ⟨2000, 1, 1⟩, nonce := List.replicate 12 0, digest := entry }
  decrypt_journal_entry := fun _key entry => some (entry.date, entry.digest)
  make_kdf_salt := List.replicate 32 0
  gen_key := fun _password _kdf_salt => List.replicate 32 0

/-- **C10 (counterexample).** The claim fails for an arbitrary
`Encryptor`: with `constDateEnc` and a state holding one entry for each
of two distinct dates, `encrypt_journal` produces two distinct
encrypted entries carrying the same date. -/
theorem encrypt_journal_duplicate_date_cex :
    (((⟨[], [(⟨2024, 1, 1⟩, [0]), (⟨2024, 1, 2⟩, [1])]⟩ : State).entries.map
        Prod.fst).Nodup) ∧
    ¬ (((constDateEnc.encrypt_journal
          ⟨[], [(⟨2024, 1, 1⟩, [0]), (⟨2024, 1, 2⟩, [1])]⟩).entries.map
        EncryptedEntry.date).Nodup) := by
  decide

/-- **C10 (amended).** For every state whose entry map has
pairwise-distinct dates and every `Encryptor` whose
`encrypt_journal_entry` preserves the date it is given — as both
`ZeroSecurity` and `Secure` do — the journal produced by
`encrypt_journal` holds at most one entry per date. -/
theorem encrypt_journal_one_entry_per_date (e : Encryptor) (st : State)
    (hkeys : (st.entries.map Prod.fst).Nodup)
    (hpres : ∀ k t d, (e.encrypt_journal_entry k t d).date = d) :
    ((e.encrypt_journal st).entries.map EncryptedEntry.date).Nodup := by
  have hsub : List.Sublist (e.encrypt_journal st).entries
      (st.entries.map (fun p =>
        e.encrypt_journal_entry (e.gen_key st.password e.make_kdf_salt) p.2 p.1)) :=
    hsFromList_sublist _
  have hdates : (st.entries.map (fun p =>
      e.encrypt_journal_entry (e.gen_key st.password e.make_kdf_salt) p.2 p.1)).map
        EncryptedEntry.date = st.entries.map Prod.fst := by
    rw [List.map_map]
    exact List.map_congr_left (fun p _ => hpres _ _ _)
  exact (hdates ▸ (hsub.map EncryptedEntry.date)).nodup hkeys

/-- Witness for `encrypt_journal_one_entry_per_date`: `ZeroSecurity`
preserves dates, and encrypting a two-date state yields two entries
with distinct dates. -/
theorem encrypt_journal_one_entry_per_date_witness :
    (((ZeroSecurity.encrypt_journal
        ⟨[], [(⟨2024, 1, 1⟩, [0]), (⟨2024, 1, 2⟩, [1])]⟩).entries.map
      EncryptedEntry.date).Nodup) :=
  encrypt_journal_one_entry_per_date ZeroSecurity
    ⟨[], [(⟨2024, 1, 1⟩, [0]), (⟨2024, 1, 2⟩, [1])]⟩
    (by decide) (fun _ _ _ => rfl)

lemma digitChar_toNat {d : Nat} (h : d < 10) : (digitChar d).toNat = 48 + d := by
  interval_cases d <;> decide

lemma charDigit_digitChar {d : Nat} (h : d < 10) :
    charDigit (digitChar d) = some d := by
  rw [charDigit, if_pos]
  · rw [digitChar_toNat h]; congr 1; omega
  · rw [digitChar_toNat h]; omega

lemma natToCharsAux_all_digits :
    ∀ (fuel n : Nat) (c : Char), c ∈ natToCharsAux fuel n →
      ∃ d, d < 10 ∧ c = digitChar d := by
  intro fuel
  induction fuel with
  | zero => intro n c hc; simp [natToCharsAux] at hc
  | succ fuel ih =>
    intro n c hc
    rw [natToCharsAux] at hc
    by_cases hn : n = 0
    · rw [if_pos hn] at hc; simp at hc
    · rw [if_neg hn, List.mem_append] at hc
      rcases hc with hc | hc
      · exact ih (n / 10) c hc
      · simp only [List.mem_singleton] at hc
        exact ⟨n % 10, Nat.mod_lt n (by omega), hc⟩

lemma natToCharsAux_val :
    ∀ (fuel n a : Nat), n ≤ fuel →
      List.foldl digitStep (some a) (natToCharsAux fuel n)
        = some (a * 10 ^ (natToCharsAux fuel n).length + n) := by
  intro fuel
  induction fuel with
  | zero =>
    intro n a hle
    have hn : n = 0 := Nat.le_zero.mp hle
    subst hn
    simp [natToCharsAux]
  | succ fuel ih =>
    intro n a hle
    by_cases hn : n = 0
    · subst hn; simp [natToCharsAux]
    · rw [natToCharsAux, if_neg hn, List.foldl_append,
        ih (n / 10) a (by omega)]
      have hmod : n % 10 < 10 := Nat.mod_lt n (by omega)
      simp only [List.foldl_cons, List.foldl_nil, digitStep,
        charDigit_digitChar hmod, Option.some_bind, Option.map_some',
        List.length_append, List.length_singleton]
      congr 1
      have hdm : 10 * (n / 10) + n % 10 = n := Nat.div_add_mod n 10
      rw [pow_succ]
      calc (a * 10 ^ (natToCharsAux fuel (n / 10)).length + n / 10) * 10 + n % 10
          = a * (10 ^ (natToCharsAux fuel (n / 10)).length * 10)
            + (10 * (n / 10) + n % 10) := by ring
        _ = _ := by rw [hdm]

lemma natToCharsAux_ne_nil {fuel n : Nat} (hn : 0 < n) (hle : n ≤ fuel) :
    natToCharsAux fuel n ≠ [] := by
  cases fuel with
  | zero => omega
  | succ fuel =>
    rw [natToCharsAux, if_neg (by omega)]
    simp

lemma digitsVal_natToChars (n : Nat) : digitsVal (natToChars n) = some n := by
  by_cases hn : n = 0
  · subst hn; decide
  · rw [natToChars, if_neg hn, digitsVal,
      if_neg (by simpa using natToCharsAux_ne_nil (by omega) (by omega))]
    have := natToCharsAux_val (n + 1) n 0 (by omega)
    rw [this, Nat.zero_mul, Nat.zero_add]

lemma natToChars_all_digits {n : Nat} {c : Char} (hc : c ∈ natToChars n) :
    48 ≤ c.toNat ∧ c.toNat ≤ 57 := by
  rw [natToChars] at hc
  by_cases hn : n = 0
  · rw [if_pos hn] at hc
    simp only [List.mem_singleton] at hc
    subst hc; decide
  · rw [if_neg hn] at hc
    obtain ⟨d, hd, hcd⟩ := natToCharsAux_all_digits (n + 1) n c hc
    subst hcd
    rw [digitChar_toNat hd]
    omega

lemma natToChars_ne_nil (n : Nat) : natToChars n ≠ [] := by
  rw [natToChars]
  by_cases hn : n = 0
  · rw [if_pos hn]; simp
  · rw [if_neg hn]
    exact natToCharsAux_ne_nil (by omega) (by omega)

lemma pad2_all_digits {n : Nat} {c : Char} (hc : c ∈ pad2 n) :
    48 ≤ c.toNat ∧ c.toNat ≤ 57 := by
  rw [pad2] at hc
  by_cases hn : n < 10
  · rw [if_pos hn] at hc
    rcases List.mem_cons.mp hc with hc | hc
    · subst hc; decide
    · exact natToChars_all_digits hc
  · rw [if_neg hn] at hc
    exact natToChars_all_digits hc

lemma goodC_not_ws {c : Char}
    (h : c.toNat = 45 ∨ (48 ≤ c.toNat ∧ c.toNat ≤ 57)) : isWsC c = false := by
  have h1 : c ≠ ' ' := fun he => by subst he; exact absurd h (by decide)
  have h2 : c ≠ '\t' := fun he => by subst he; exact absurd h (by decide)
  have h3 : c ≠ '\n' := fun he => by subst he; exact absurd h (by decide)
  have h4 : c ≠ '\r' := fun he => by subst he; exact absurd h (by decide)
  simp [isWsC, h1, h2, h3, h4]

lemma toLowerC_id {c : Char}
    (h : c.toNat = 45 ∨ (48 ≤ c.toNat ∧ c.toNat ≤ 57)) : toLowerC c = c := by
  rw [toLowerC, if_neg]
  omega

lemma dropWhile_all_false {α : Type} (p : α → Bool) (l : List α)
    (h : ∀ c ∈ l, p c = false) : List.dropWhile p l = l := by
  cases l with
  | nil => rfl
  | cons c t =>
    rw [List.dropWhile_cons, if_neg]
    rw [h c (List.mem_cons_self c t)]
    simp

lemma trimL_id {l : List Char} (h : ∀ c ∈ l, isWsC c = false) : trimL l = l := by
  rw [trimL, dropWhile_all_false _ _ h,
    dropWhile_all_false _ _ (fun c hc => h c (List.mem_reverse.mp hc)),
    List.reverse_reverse]

lemma toLowerL_id {l : List Char}
    (h : ∀ c ∈ l, c.toNat = 45 ∨ (48 ≤ c.toNat ∧ c.toNat ≤ 57)) :
    toLowerL l = l := by
  rw [toLowerL]
  calc l.map toLowerC = l.map id := List.map_congr_left (fun c hc => toLowerC_id (h c hc))
    _ = l := List.map_id l

lemma startsWithL_today_false {c : Char} (t : List Char) (h : c ≠ 't') :
    startsWithL ['t', 'o', 'd', 'a', 'y'] (c :: t) = false := by
  rw [startsWithL]
  have : ('t' == c) = false := beq_eq_false_iff_ne.mpr (fun he => h he.symm)
  rw [this, Bool.false_and]

lemma splitDash_no_dash : ∀ (l : List Char), (∀ c ∈ l, c ≠ '-') →
    splitDash l = [l] := by
  intro l
  induction l with
  | nil => intro _; rfl
  | cons c t ih =>
    intro h
    rw [splitDash, if_neg (h c (List.mem_cons_self c t)),
      ih (fun c hc => h c (List.mem_cons_of_mem _ hc))]

lemma splitDash_append : ∀ (a b : List Char), (∀ c ∈ a, c ≠ '-') →
    splitDash (a ++ '-' :: b) = a :: splitDash b := by
  intro a
  induction a with
  | nil => intro b _; simp [splitDash]
  | cons c t ih =>
    intro b h
    rw [List.cons_append, splitDash, if_neg (h c (List.mem_cons_self c t)),
      ih b (fun c hc => h c (List.mem_cons_of_mem _ hc))]

lemma parseU8_pad2 {m : Nat} (h1 : 1 ≤ m) (h2 : m ≤ 31) :
    parseU8 (pad2 m) = some m := by
  interval_cases m <;> decide

lemma parseI32_natToChars {y : Int} (h0 : 0 ≤ y) (hb : y ≤ 262143) :
    parseI32 (natToChars y.toNat) = some y := by
  obtain ⟨c, t, heq⟩ : ∃ c t, natToChars y.toNat = c :: t := by
    cases hn : natToChars y.toNat with
    | nil => exact absurd hn (natToChars_ne_nil _)
    | cons c t => exact ⟨c, t, rfl⟩
  have hc : 48 ≤ c.toNat ∧ c.toNat ≤ 57 :=
    natToChars_all_digits (by rw [heq]; exact List.mem_cons_self c t)
  have hne1 : ¬ c = '-' := fun he => absurd hc (by subst he; decide)
  have hne2 : ¬ c = '+' := fun he => absurd hc (by subst he; decide)
  rw [heq, parseI32]
  rw [if_neg hne1, if_neg hne2, ← heq, digitsVal_natToChars]
  have hle : y.toNat ≤ 2147483647 := by omega
  simp only [Option.some_bind, if_pos hle]
  rw [Int.toNat_of_nonneg h0]

lemma daysInMonth_le (y : Int) (m : Nat) : daysInMonth y m ≤ 31 := by
  unfold daysInMonth
  split
  · split <;> omega
  · split <;> omega

lemma digit_ne_dash {c : Char} (h : 48 ≤ c.toNat ∧ c.toNat ≤ 57) : c ≠ '-' :=
  fun he => absurd h (by subst he; decide)

lemma dateDisplay_good (d : Date) :
    ∀ c ∈ dateDisplay d, c.toNat = 45 ∨ (48 ≤ c.toNat ∧ c.toNat ≤ 57) := by
  intro c hc
  rw [dateDisplay] at hc
  rcases List.mem_append.mp hc with hc | hc
  · rw [intToChars] at hc
    by_cases hy : d.year < 0
    · rw [if_pos hy] at hc
      rcases List.mem_cons.mp hc with hc | hc
      · subst hc; left; decide
      · right; exact natToChars_all_digits hc
    · rw [if_neg hy] at hc
      right; exact natToChars_all_digits hc
  · rcases List.mem_cons.mp hc with hc | hc
    · subst hc; left; decide
    · rcases List.mem_append.mp hc with hc | hc
      · right; exact pad2_all_digits hc
      · rcases List.mem_cons.mp hc with hc | hc
        · subst hc; left; decide
        · right; exact pad2_all_digits hc

/-- **C8 (counterexample).** The date `-1-01-01` (year −1, a
calendar-valid date per `chrono::NaiveDate::from_ymd_opt`) does not
survive the display/parse round-trip: its `Display` form starts with
the minus sign, which `from_str`'s `split('-')` treats as a field
separator, producing four fields and the `InvalidLength` error instead
of the date. -/
theorem date_display_negative_year_cex :
    fromYmdValid (-1) 1 1 = true ∧
    dateFromStr ⟨2026, 10, 12⟩ (fun _ => none) (dateDisplay ⟨-1, 1, 1⟩)
      = .error .InvalidLength := by
  exact ⟨by decide, by decide⟩

/-- **C8 (amended).** For every calendar-valid date (in chrono's
representable range): if the year is nonnegative, parsing the string
produced by the `Display` implementation with `Date::from_str` succeeds
and returns the same date; if the year is negative, parsing the
`Display` form fails with `InvalidLength` (the leading minus sign is
consumed as a field separator by `split('-')`), for every current date
and chrono day-arithmetic oracle. -/
theorem date_display_parse_roundtrip (now : Date) (subDays : Nat → Option Date)
    (d : Date) (hvalid : fromYmdValid d.year d.month d.day = true) :
    (0 ≤ d.year → dateFromStr now subDays (dateDisplay d) = .ok d) ∧
    (d.year < 0 → dateFromStr now subDays (dateDisplay d) = .error .InvalidLength) := by
  have hv' := hvalid
  rw [fromYmdValid] at hv'
  simp only [Bool.and_eq_true, decide_eq_true_eq] at hv'
  obtain ⟨⟨⟨⟨⟨hy1, hy2⟩, hm1⟩, hm2⟩, hd1⟩, hd2⟩ := hv'
  have hgood := dateDisplay_good d
  have htl : toLowerL (trimL (dateDisplay d)) = dateDisplay d := by
    rw [trimL_id (fun c hc => goodC_not_ws (hgood c hc)), toLowerL_id hgood]
  constructor
  · intro hy0
    have hyneg : ¬ d.year < 0 := by omega
    have hdisp : dateDisplay d
        = natToChars d.year.toNat ++ '-' :: (pad2 d.month ++ '-' :: pad2 d.day) := by
      rw [dateDisplay, intToChars, if_neg hyneg]
    obtain ⟨c, t, heq⟩ : ∃ c t, natToChars d.year.toNat = c :: t := by
      cases hn : natToChars d.year.toNat with
      | nil => exact absurd hn (natToChars_ne_nil _)
      | cons c t => exact ⟨c, t, rfl⟩
    have hct : 48 ≤ c.toNat ∧ c.toNat ≤ 57 :=
      natToChars_all_digits (by rw [heq]; exact List.mem_cons_self c t)
    have hcnott : c ≠ 't' := fun he => absurd hct (by subst he; decide)
    simp only [dateFromStr]
    rw [htl, hdisp, heq, List.cons_append, startsWithL_today_false _ hcnott]
    simp only [Bool.false_eq_true, if_false]
    rw [← List.cons_append, ← heq,
      splitDash_append _ _
        (fun c2 hc2 => digit_ne_dash (natToChars_all_digits hc2)),
      splitDash_append _ _
        (fun c2 hc2 => digit_ne_dash (pad2_all_digits hc2)),
      splitDash_no_dash _
        (fun c2 hc2 => digit_ne_dash (pad2_all_digits hc2))]
    dsimp only
    rw [parseI32_natToChars hy0 hy2,
      parseU8_pad2 hm1 (by omega),
      parseU8_pad2 hd1 (hd2.trans (daysInMonth_le d.year d.month))]
    dsimp only
    rw [if_pos hvalid]
  · intro hyneg
    have hdisp : dateDisplay d
        = '-' :: (natToChars d.year.natAbs
            ++ '-' :: (pad2 d.month ++ '-' :: pad2 d.day)) := by
      rw [dateDisplay, intToChars, if_pos hyneg, List.cons_append]
    simp only [dateFromStr]
    rw [htl, hdisp, startsWithL_today_false _ (by decide : '-' ≠ 't')]
    simp only [Bool.false_eq_true, if_false]
    rw [splitDash, if_pos rfl,
      splitDash_append _ _
        (fun c2 hc2 => digit_ne_dash (natToChars_all_digits hc2)),
      splitDash_append _ _
        (fun c2 hc2 => digit_ne_dash (pad2_all_digits hc2)),
      splitDash_no_dash _
        (fun c2 hc2 => digit_ne_dash (pad2_all_digits hc2))]

/-- Witness for `date_display_parse_roundtrip`: 2024-01-01 is
calendar-valid and round-trips through `Display`/`from_str`. -/
theorem date_display_parse_roundtrip_witness :
    fromYmdValid 2024 1 1 = true ∧
    dateFromStr ⟨2026, 10, 12⟩ (fun _ => none) (dateDisplay ⟨2024, 1, 1⟩)
      = .ok ⟨2024, 1, 1⟩ :=
  ⟨by decide, (date_display_parse_roundtrip ⟨2026, 10, 12⟩ (fun _ => none)
      ⟨2024, 1, 1⟩ (by decide)).1 (by decide)⟩
